import Mathlib

/-!
Verification of the peer session and state-synchronization layer of a small
multiplayer game (signaling client, per-peer connection wrapper, mesh
orchestrator, state synchronizer).

Shallow embedding conventions:
- JS numbers are modelled as rationals.
- JS object/Map collections keyed by string are modelled as association lists
  with set/get/delete operations; a JS Map keeps at most one entry per key,
  which assocSet preserves.
- Array.prototype.sort with the comparator (a, b) => a.timestamp - b.timestamp
  is a stable sort (ES2019); a stable sort consistent with a total preorder has
  a uniquely determined output, so List.insertionSort (also stable) models it
  exactly.
- External runtime calls (Math.acos, Math.sin, Math.cos, JSON.parse) are passed
  as parameters or as their outcome, never reimplemented.
- Event callbacks that may throw are modelled as functions into Except.
-/

/-- Association list get, modelling JS Map.get / object indexing. -/
def assocGet {α β : Type} [DecidableEq α] (k : α) : List (α × β) → Option β
  | [] => none
  | (k', v) :: rest => if k' = k then some v else assocGet k rest

/-- Association list set, modelling JS Map.set / object index assignment:
replaces the existing entry for the key in place, else appends. -/
def assocSet {α β : Type} [DecidableEq α] (k : α) (v : β) : List (α × β) → List (α × β)
  | [] => [(k, v)]
  | (k', v') :: rest => if k' = k then (k, v) :: rest else (k', v') :: assocSet k v rest

/-- Association list delete, modelling JS Map.delete (under the unique-key
invariant of a Map, deleting every entry with the key is the same). -/
def assocDelete {α β : Type} [DecidableEq α] (k : α) : List (α × β) → List (α × β)
  | [] => []
  | (k', v) :: rest => if k' = k then assocDelete k rest else (k', v) :: assocDelete k rest

/-- PlayerState from game-network-manager.ts: id, position, rotation
(quaternion), optional velocity and animation, and a timestamp. -/
structure PlayerState where
  id : String
  position : ℚ × ℚ × ℚ
  rotation : ℚ × ℚ × ℚ × ℚ
  velocity : Option (ℚ × ℚ × ℚ) := none
  animation : Option String := none
  timestamp : ℚ
deriving DecidableEq, Repr

/-- Comparator ordering used by the interpolation buffer sort:
(a, b) => a.timestamp - b.timestamp. -/
def tsLe (a b : PlayerState) : Prop := a.timestamp ≤ b.timestamp

instance : DecidableRel tsLe := fun a b => inferInstanceAs (Decidable (a.timestamp ≤ b.timestamp))

/-- The state GameNetworkManager keeps for one remote entity id:
interpolationBuffer[id] and playerStates[id]. -/
structure EntitySlot where
  buffer : List PlayerState := []
  stored : Option PlayerState := none
deriving DecidableEq, Repr

/-- GameNetworkManager.handlePlayerUpdate restricted to one entity id: push the
received state onto the buffer, stable-sort by timestamp, trim entries older
than 10 seconds relative to the current wall clock, and set playerStates[id]
on first contact with this entity. -/
def handlePlayerUpdate (e : EntitySlot) (state : PlayerState) (now : ℚ) : EntitySlot :=
  let pushed := e.buffer ++ [state]
  let sorted := pushed.insertionSort tsLe
  let trimmed := sorted.filter (fun s => now - s.timestamp < 10000)
  { buffer := trimmed
  , stored := some (e.stored.getD state) }

/-- The partial state accepted by GameNetworkManager.updatePlayerState: fields
present in the JS object override the current state under object spread. -/
structure PlayerStatePatch where
  position : Option (ℚ × ℚ × ℚ) := none
  rotation : Option (ℚ × ℚ × ℚ × ℚ) := none
  velocity : Option (ℚ × ℚ × ℚ) := none
  animation : Option String := none
deriving DecidableEq, Repr

/-- GameNetworkManager.createEmptyPlayerState: origin position, identity
quaternion, current time. -/
def createEmptyPlayerState (playerId : String) (now : ℚ) : PlayerState :=
  { id := playerId
  , position := (0, 0, 0)
  , rotation := (0, 0, 0, 1)
  , timestamp := now }

/-- The object spread in updatePlayerState:
newState = spread of currentState then the patch, with timestamp set to the
current time. -/
def mergePlayerState (cur : PlayerState) (patch : PlayerStatePatch) (now : ℚ) : PlayerState :=
  { id := cur.id
  , position := patch.position.getD cur.position
  , rotation := patch.rotation.getD cur.rotation
  , velocity := match patch.velocity with
      | some v => some v
      | none => cur.velocity
  , animation := match patch.animation with
      | some a => some a
      | none => cur.animation
  , timestamp := now }

/-- The outbound-path state of GameNetworkManager used by updatePlayerState:
local player id, the playerStates record, the throttle clock and rate
(updateRate = 1000 / 20 ms, i.e. 20 updates per second). -/
structure SyncState where
  localPlayerId : Option String := none
  playerStates : List (String × PlayerState) := []
  lastUpdateTime : ℚ := 0
  updateRate : ℚ := 1000 / 20
deriving DecidableEq, Repr

/-- GameNetworkManager.updatePlayerState: bail out without a local id; throttle
when less than updateRate has elapsed since the last emission; otherwise merge
the patch over the current (or empty) state, store it, stamp the throttle
clock and hand the full new state to sendPlayerState. The second component is
the payload of the emitted player_update message (none when nothing is sent). -/
def updatePlayerState (s : SyncState) (patch : PlayerStatePatch) (now : ℚ) :
    SyncState × Option PlayerState :=
  match s.localPlayerId with
  | none => (s, none)
  | some pid =>
    if now - s.lastUpdateTime < s.updateRate then (s, none)
    else
      let cur := (assocGet pid s.playerStates).getD (createEmptyPlayerState pid now)
      let newState := mergePlayerState cur patch now
      ({ s with lastUpdateTime := now
              , playerStates := assocSet pid newState s.playerStates }
      , some newState)

/-- A sequence of updatePlayerState calls (patch, wall-clock time), returning
the emitted player_update payloads in order. -/
def runPlayerUpdates (s : SyncState) : List (PlayerStatePatch × ℚ) → List PlayerState
  | [] => []
  | (p, t) :: rest =>
    let r := updatePlayerState s p t
    match r.2 with
    | some m => m :: runPlayerUpdates r.1 rest
    | none => runPlayerUpdates r.1 rest

/-- GameNetworkManager.lerp. -/
def lerp (a b t : ℚ) : ℚ := a + (b - a) * t

/-- Quaternions as stored by the source: [x, y, z, w]. -/
abbrev Quat := ℚ × ℚ × ℚ × ℚ

/-- Componentwise negation of a quaternion. -/
def negQuat (q : Quat) : Quat := (-q.1, -q.2.1, -q.2.2.1, -q.2.2.2)

/-- GameNetworkManager.slerpQuaternions. The transcendental functions
Math.acos, Math.sin and Math.cos are external runtime calls and are passed in
as parameters acosF, sinF, cosF; every branch decision is made by the embedded
rational arithmetic exactly as in the source. -/
def slerpQuaternions (acosF sinF cosF : ℚ → ℚ) (q1 q2 : Quat) (t : ℚ) : Quat :=
  let x1 := q1.1
  let y1 := q1.2.1
  let z1 := q1.2.2.1
  let w1 := q1.2.2.2
  let x2 := q2.1
  let y2 := q2.2.1
  let z2 := q2.2.2.1
  let w2 := q2.2.2.2
  let dot := x1 * x2 + y1 * y2 + z1 * z2 + w1 * w2
  let q2x := if dot < 0 then -x2 else x2
  let q2y := if dot < 0 then -y2 else y2
  let q2z := if dot < 0 then -z2 else z2
  let q2w := if dot < 0 then -w2 else w2
  let dotAbs := |dot|
  if dotAbs > 0.9995 then
    (lerp x1 q2x t, lerp y1 q2y t, lerp z1 q2z t, lerp w1 q2w t)
  else
    let theta0 := acosF dotAbs
    let theta := theta0 * t
    let sinTheta := sinF theta
    let sinTheta0 := sinF theta0
    let s0 := cosF theta - dotAbs * sinTheta / sinTheta0
    let s1 := sinTheta / sinTheta0
    (s0 * x1 + s1 * q2x, s0 * y1 + s1 * q2y, s0 * z1 + s1 * q2z, s0 * w1 + s1 * q2w)

/-- The bracket search loop of GameNetworkManager.update: the first buffered
state with timestamp strictly greater than the requested time becomes
nextState, the entry just before it (or nextState itself at index 0) becomes
previousState; none when no buffered timestamp exceeds the requested time. -/
def findBracket (prev : Option PlayerState) :
    List PlayerState → ℚ → Option (PlayerState × PlayerState)
  | [], _ => none
  | x :: xs, t => if t < x.timestamp then some (prev.getD x, x) else findBracket (some x) xs t

/-- One per-entity step of GameNetworkManager.update at the interpolation time
currentTime (the caller already subtracted interpolationDelay): with fewer
than two buffered samples the entity is skipped; with no bracketing pair the
latest buffered state is stored as-is; otherwise position is lerped with the
clamped factor and rotation is slerped, stored on top of nextState. -/
def updateEntity (acosF sinF cosF : ℚ → ℚ) (e : EntitySlot) (currentTime : ℚ) : EntitySlot :=
  if e.buffer.length < 2 then e
  else
    match findBracket none e.buffer currentTime with
    | none => { e with stored := e.buffer.getLast? }
    | some (prevS, nextS) =>
      let total := nextS.timestamp - prevS.timestamp
      let progress := if 0 < total then (currentTime - prevS.timestamp) / total else 0
      let factor := max 0 (min 1 progress)
      let pos := (lerp prevS.position.1 nextS.position.1 factor,
                  lerp prevS.position.2.1 nextS.position.2.1 factor,
                  lerp prevS.position.2.2 nextS.position.2.2 factor)
      let rot := slerpQuaternions acosF sinF cosF prevS.rotation nextS.rotation factor
      { e with stored := some { nextS with position := pos, rotation := rot } }

/-- x lies (inclusively) between a and b. -/
def between (a b x : ℚ) : Prop := min a b ≤ x ∧ x ≤ max a b

/-- The reconnection-relevant fields of SignalingClient (signaling.ts):
attempt counter, the configured cap (15) and base delay (1000 ms), the
re-entrancy guard and the pending backoff timer delay. -/
structure SignalingRState where
  reconnectAttempts : ℕ := 0
  maxReconnectAttempts : ℕ := 15
  reconnectDelay : ℚ := 1000
  isReconnecting : Bool := false
  reconnectTimer : Option ℚ := none
deriving DecidableEq, Repr

/-- The externally visible action taken by one attemptReconnect call. -/
inductive ReconnectAction
  | scheduleTimer : ℚ → ReconnectAction
  | recreateSocket : ReconnectAction
  | noAction : ReconnectAction
deriving DecidableEq, Repr

/-- SignalingClient.attemptReconnect (signaling.ts lines 176-205): re-entrancy
guard, increment the attempt counter; past the cap, disconnect the socket,
build a fresh socket object and connect (connect resets the counter and the
guard); otherwise schedule a backoff timer with delay
min(reconnectDelay * 1.5 ^ (attempt - 1), 30000). -/
def attemptReconnect (s : SignalingRState) : SignalingRState × ReconnectAction :=
  if s.isReconnecting then (s, ReconnectAction.noAction)
  else
    let n := s.reconnectAttempts + 1
    if n > s.maxReconnectAttempts then
      ({ s with reconnectAttempts := 0, isReconnecting := false }
      , ReconnectAction.recreateSocket)
    else
      let delay := min (s.reconnectDelay * (3 / 2 : ℚ) ^ (n - 1)) 30000
      ({ s with reconnectAttempts := n
              , isReconnecting := true
              , reconnectTimer := some delay }
      , ReconnectAction.scheduleTimer delay)

/-- The backoff formula of the spec: min(base * 1.5 ^ (attempt - 1), 30000). -/
def reconnectBackoffDelay (base : ℚ) (attempt : ℕ) : ℚ :=
  min (base * (3 / 2 : ℚ) ^ (attempt - 1)) 30000

/-- One PeerConnection as owned by PeerManager: an allocation token telling
instances apart, and the destroyed flag of the underlying simple-peer object. -/
structure Link where
  token : ℕ
  destroyed : Bool
deriving DecidableEq, Repr

/-- The peer-map-relevant state of PeerManager (peerManager.ts): the peers map,
a fresh-token counter for new PeerConnection instances, the current room, the
signaling client id, and the microtask queue of pending close events
(simple-peer 9.11.1 destroy defers the close event to a microtask). -/
structure PMState where
  peers : List (String × Link) := []
  nextToken : ℕ := 0
  roomId : Option String := none
  selfId : Option String := none
  pendingClose : List String := []
deriving DecidableEq, Repr

/-- PeerManager.createPeer: build a fresh PeerConnection, wire its handlers and
set it in the peers map. The initiator flag does not affect the map. -/
def createPeer (s : PMState) (peerId : String) (_initiator : Bool) : PMState :=
  { s with peers := assocSet peerId { token := s.nextToken, destroyed := false } s.peers
         , nextToken := s.nextToken + 1 }

/-- PeerManager.closePeer: look the peer up and call its close method, which
calls simple-peer destroy: mark the link destroying/destroyed and queue the
close event; a link already destroyed is left alone. The map entry is NOT
removed here; removal happens in the close event handler. -/
def closePeer (s : PMState) (peerId : String) : PMState :=
  match assocGet peerId s.peers with
  | none => s
  | some link =>
    if link.destroyed then s
    else
      { s with peers := assocSet peerId { link with destroyed := true } s.peers
             , pendingClose := s.pendingClose ++ [peerId] }

/-- PeerManager.closeAllPeers: close every peer currently in the map. -/
def closeAllPeers (s : PMState) : PMState :=
  (s.peers.map Prod.fst).foldl closePeer s

/-- PeerManager.leaveRoom: when in a room, tell the signaling server, clear the
room id, close all peers and emit roomLeft. -/
def leaveRoomPM (s : PMState) : PMState :=
  match s.roomId with
  | none => s
  | some _ => closeAllPeers { s with roomId := none }

/-- PeerManager.disconnect: leaveRoom when in a room, else closeAllPeers; then
disconnect the signaling client (which does not touch the peer map). -/
def disconnectPM (s : PMState) : PMState :=
  if s.roomId.isSome then leaveRoomPM s else closeAllPeers s

/-- The close handler registered in createPeer: delete the map entry for the
peer (and emit peerDisconnect). Runs when the queued close event is delivered. -/
def handleCloseEvent (s : PMState) (peerId : String) : PMState :=
  { s with peers := assocDelete peerId s.peers }

/-- Deliver every queued close event in order. -/
def processPendingClose (s : PMState) : PMState :=
  s.pendingClose.foldl handleCloseEvent { s with pendingClose := [] }

/-- The room_users handler of PeerManager: for each listed user that is not us
and has no live peer, create a receiver-role peer. -/
def handleRoomUsers (s : PMState) (users : List String) : PMState :=
  users.foldl
    (fun acc u =>
      if acc.selfId ≠ some u ∧ assocGet u acc.peers = none then createPeer acc u false
      else acc)
    s

/-- The user_joined handler of PeerManager: create an initiator peer for the
newcomer unless it is us or a peer already exists. -/
def handleUserJoined (s : PMState) (userId : String) : PMState :=
  if s.selfId ≠ some userId ∧ assocGet userId s.peers = none then createPeer s userId true
  else s

/-- The signal handler of PeerManager: create a receiver peer lazily when none
exists for the sender, then feed the signal to it (no further map effect). -/
def handleSignalEvent (s : PMState) (userId : String) : PMState :=
  if assocGet userId s.peers = none then createPeer s userId false
  else s

/-- The user_left and user_disconnected handlers: close the peer. -/
def handleUserLeft (s : PMState) (userId : String) : PMState :=
  closePeer s userId

/-- PeerManager.joinRoom: leave the current room first, then record and join
the new one. -/
def joinRoomPM (s : PMState) (r : String) : PMState :=
  let s1 := if s.roomId.isSome then leaveRoomPM s else s
  { s1 with roomId := some r }

/-- One PeerManager state transition: a signaling event handler runs, a queued
close event is delivered, or a public method is called. -/
inductive PMStep : PMState → PMState → Prop
  | roomUsers (s : PMState) (users : List String) : PMStep s (handleRoomUsers s users)
  | userJoined (s : PMState) (u : String) : PMStep s (handleUserJoined s u)
  | signalEvt (s : PMState) (u : String) : PMStep s (handleSignalEvent s u)
  | userLeft (s : PMState) (u : String) : PMStep s (handleUserLeft s u)
  | closeEvt (s : PMState) (u : String) : PMStep s (handleCloseEvent s u)
  | setSelf (s : PMState) (i : Option String) : PMStep s { s with selfId := i }
  | joinRoomCall (s : PMState) (r : String) : PMStep s (joinRoomPM s r)
  | leaveRoomCall (s : PMState) : PMStep s (leaveRoomPM s)
  | disconnectCall (s : PMState) : PMStep s (disconnectPM s)

/-- The state of a freshly constructed PeerManager. -/
def PMInit : PMState := {}

/-- Reachability of a PeerManager state from construction. -/
def PMReachable (s : PMState) : Prop := Relation.ReflTransGen PMStep PMInit s

/-- The connection-relevant fields of the game store (source in
server/README.md): connection flags, the terminal error slot, room id, whether
a PeerManager exists, and whether the connection timeout is pending. -/
structure StoreState where
  isConnected : Bool := false
  isConnecting : Bool := false
  isReconnecting : Bool := false
  connectionError : Option String := none
  roomId : Option String := none
  hasPeerManager : Bool := false
  timeoutPending : Bool := false
deriving DecidableEq, Repr

/-- Externally visible actions of the store transitions. -/
inductive StoreAction
  | scheduleTimeout : ℚ → StoreAction
  | cancelTimeout : StoreAction
  | teardownPeerManager : StoreAction
deriving DecidableEq, Repr

/-- CONNECTION_TIMEOUT from the game store: 15 seconds. -/
def connectionTimeoutMs : ℚ := 15000

/-- The store connect action (server/README.md lines 332-393): no-op when
already connected or connecting; otherwise set the connecting flags, record
the room id, create the PeerManager and schedule the connection timeout. -/
def storeConnect (s : StoreState) (newRoomId : String) : StoreState × List StoreAction :=
  if s.isConnected || s.isConnecting then (s, [])
  else
    ({ s with isConnecting := true
            , connectionError := none
            , roomId := some newRoomId
            , isReconnecting := false
            , hasPeerManager := true
            , timeoutPending := true }
    , [StoreAction.scheduleTimeout connectionTimeoutMs])

/-- The connection timeout callback (server/README.md lines 380-393): when the
store is still connecting, disconnect and drop the PeerManager, clear the room
and surface the terminal error; otherwise do nothing. Either way the timer has
fired and is no longer pending. -/
def storeTimeoutFire (s : StoreState) : StoreState × List StoreAction :=
  if s.isConnecting then
    ({ s with isConnecting := false
            , connectionError := some "Connection timed out. Please try again."
            , roomId := none
            , hasPeerManager := false
            , timeoutPending := false }
    , [StoreAction.teardownPeerManager])
  else ({ s with timeoutPending := false }, [])

/-- The clientConnected handler (server/README.md lines 396-438): cancel the
pending timeout and mark the store connected (it then seeds the local player
and joins the room through the PeerManager). -/
def storeClientConnected (s : StoreState) : StoreState × List StoreAction :=
  ({ s with timeoutPending := false
          , isConnected := true
          , isConnecting := false
          , isReconnecting := false }
  , if s.timeoutPending then [StoreAction.cancelTimeout] else [])

/-- The typed wire envelope of the peer data channel (peer.ts): a string tag
and an opaque payload (modelled by its JSON text). -/
structure PeerData where
  type : String
  payload : String
deriving DecidableEq, Repr

/-- The per-link state touched by the data handler: the destroyed flag of the
connection (untouched on a parse failure, showing the failure is non-fatal). -/
structure PeerConnState where
  destroyed : Bool := false
deriving DecidableEq, Repr

/-- Events a PeerConnection can emit from its data handler. -/
inductive PeerEvent
  | dataEvt : PeerData → PeerEvent
deriving DecidableEq, Repr

/-- The data handler of PeerConnection (peer.ts lines 55-63). JSON.parse is an
external runtime call whose outcome is the parsed argument; Except.error
models a thrown parse exception. The try/catch makes the handler a total
function: on failure it logs one console error and emits nothing, and the
connection state is untouched. Result: (connection state, emitted events,
console error log). -/
def handleDataEvent (st : PeerConnState) (parsed : Except String PeerData) :
    PeerConnState × List PeerEvent × List String :=
  match parsed with
  | Except.ok d => (st, [PeerEvent.dataEvt d], [])
  | Except.error e => (st, [], ["[PeerConnection] Failed to parse peer data: " ++ e])

/-- PeerManager.emit (peerManager.ts lines 49-63): run every registered
callback for the event in order, each wrapped in try/catch; a throwing
callback (Except.error) has its error logged and the iteration continues with
the state as of before the throw. Result: (final state, console error log). -/
def emitCallbacks {σ : Type} (cbs : List (σ → Except String σ)) (s : σ) : σ × List String :=
  match cbs with
  | [] => (s, [])
  | cb :: rest =>
    match cb s with
    | Except.ok s2 => emitCallbacks rest s2
    | Except.error e =>
      let r := emitCallbacks rest s
      (r.1, e :: r.2)

/-- A fresh entity slot. -/
def emptySlot : EntitySlot := {}

/-- Concrete received state, timestamp 100. -/
def cStateA : PlayerState :=
  { id := "p", position := (1, 0, 0), rotation := (0, 0, 0, 1), timestamp := 100 }

/-- Concrete received state older than cStateA, timestamp 50. -/
def cStateB : PlayerState :=
  { id := "p", position := (2, 0, 0), rotation := (0, 0, 0, 1), timestamp := 50 }

/-- Concrete received state with the same timestamp as cStateA but different
position. -/
def cStateC : PlayerState :=
  { id := "p", position := (3, 0, 0), rotation := (0, 0, 0, 1), timestamp := 100 }

/-- Outbound sync state with a local player id and default throttle (50 ms). -/
def cSync0 : SyncState := { localPlayerId := some "me" }

/-- First concrete patch: only the position. -/
def cPatch1 : PlayerStatePatch := { position := some (1, 2, 3) }

/-- Second concrete patch: only the animation; the position is untouched. -/
def cPatch2 : PlayerStatePatch := { animation := some "run" }

/-- The first payload emitted for cSync0, cPatch1 at time 100. -/
def cMsg1 : PlayerState :=
  { id := "me", position := (1, 2, 3), rotation := (0, 0, 0, 1), timestamp := 100 }

/-- The second payload emitted afterwards for cPatch2 at time 200: it still
carries the position field with the unchanged value (1, 2, 3). -/
def cMsg2 : PlayerState :=
  { id := "me", position := (1, 2, 3), rotation := (0, 0, 0, 1)
  , animation := some "run", timestamp := 200 }

/-- Concrete buffered state at timestamp 0. -/
def cOld : PlayerState :=
  { id := "q", position := (0, 0, 0), rotation := (0, 0, 0, 1), timestamp := 0 }

/-- Concrete buffered state received more than 10 s later, timestamp 26000. -/
def cNew : PlayerState :=
  { id := "q", position := (5, 5, 5), rotation := (0, 0, 0, 1), timestamp := 26000 }

/-- A stand-in for the external trigonometric functions in closed statements. -/
def zeroFn : ℚ → ℚ := fun _ => 0

/-- A concrete PeerManager state holding one live peer, inside room r. -/
def cPM : PMState :=
  { peers := [("p", { token := 0, destroyed := false })]
  , nextToken := 1
  , roomId := some "r" }

/-- A two-sample interpolation buffer bracketing time 100. -/
def cSlot2 : EntitySlot := { buffer := [cOld, cNew] }

/-- A single-sample slot whose stored state equals its only sample. -/
def cSlot1 : EntitySlot := { buffer := [cOld], stored := some cOld }

/-- The initial game-store state. -/
def cStore0 : StoreState := {}

/-- A fresh peer-connection state. -/
def cConn0 : PeerConnState := {}

/-- A listener that increments the shared counter. -/
def cCbInc : ℕ → Except String ℕ := fun n => Except.ok (n + 1)

/-- A listener that always throws. -/
def cCbBoom : ℕ → Except String ℕ := fun _ => Except.error "boom"

/-- A listener that doubles the shared counter. -/
def cCbDouble : ℕ → Except String ℕ := fun n => Except.ok (n * 2)

theorem tsLe_total (a b : PlayerState) : tsLe a b ∨ tsLe b a :=
  le_total a.timestamp b.timestamp

theorem tsLe_trans {a b c : PlayerState} (h1 : tsLe a b) (h2 : tsLe b c) : tsLe a c :=
  le_trans h1 h2

/-- C1. The claim fails on the code: handlePlayerUpdate pushes every received
state into the buffer unconditionally. Concretely, after receiving cStateA
(timestamp 100), the strictly older cStateB (timestamp 50) is inserted rather
than discarded, and receiving cStateC (same timestamp 100 as cStateA,
different position) leaves two distinct entries with identical timestamp in
the buffer; nothing is replaced. -/
theorem handlePlayerUpdate_stale_insert_counterexample :
    cStateB.timestamp < cStateA.timestamp
    ∧ (handlePlayerUpdate (handlePlayerUpdate emptySlot cStateA 100) cStateB 100).buffer
        = [cStateB, cStateA]
    ∧ cStateA.timestamp = cStateC.timestamp
    ∧ cStateA ≠ cStateC
    ∧ (handlePlayerUpdate
        (handlePlayerUpdate (handlePlayerUpdate emptySlot cStateA 100) cStateB 100)
        cStateC 120).buffer
        = [cStateB, cStateA, cStateC] := by
  refine ⟨by with_unfolding_all decide, by with_unfolding_all decide, by with_unfolding_all decide, by with_unfolding_all decide, by with_unfolding_all decide⟩

/-- C1 (amended): for every remote entity id, the inbound handler appends every
received EntityState to the buffer regardless of its timestamp (older states
are inserted, not discarded, and entries with identical timestamps may
coexist); after every insertion the buffer is ordered by timestamp and every
entry was received within the trailing 10 s window, and the received state
itself is kept exactly when it lies inside that window. -/
theorem handlePlayerUpdate_sorted_trimmed (e : EntitySlot) (state : PlayerState) (now : ℚ) :
    ((handlePlayerUpdate e state now).buffer.Pairwise tsLe)
    ∧ (∀ s ∈ (handlePlayerUpdate e state now).buffer, now - s.timestamp < 10000)
    ∧ (now - state.timestamp < 10000 → state ∈ (handlePlayerUpdate e state now).buffer) := by
  haveI : IsTotal PlayerState tsLe := ⟨tsLe_total⟩
  haveI : IsTrans PlayerState tsLe := ⟨fun _ _ _ => tsLe_trans⟩
  simp only [handlePlayerUpdate]
  refine ⟨?_, ?_, ?_⟩
  · exact List.Pairwise.sublist (List.filter_sublist _)
      (List.sorted_insertionSort tsLe (e.buffer ++ [state]))
  · intro s hs
    have h := List.of_mem_filter hs
    simpa using h
  · intro h
    refine List.mem_filter.mpr ⟨?_, by simpa using h⟩
    exact ((List.perm_insertionSort tsLe (e.buffer ++ [state])).mem_iff).mpr (by simp)

/-- C1 witness: the amended theorem at a concrete input. -/
theorem handlePlayerUpdate_sorted_trimmed_witness :
    100 - cStateB.timestamp < 10000
    ∧ cStateB ∈ (handlePlayerUpdate (handlePlayerUpdate emptySlot cStateA 100) cStateB 100).buffer :=
  ⟨by with_unfolding_all decide,
    (handlePlayerUpdate_sorted_trimmed (handlePlayerUpdate emptySlot cStateA 100)
      cStateB 100).2.2 (by with_unfolding_all decide)⟩

theorem runPlayerUpdates_chain (r : ℚ) :
    ∀ (calls : List (PlayerStatePatch × ℚ)) (s : SyncState), s.updateRate = r →
      List.Chain' (fun a b => r ≤ b - a)
        (s.lastUpdateTime :: (runPlayerUpdates s calls).map PlayerState.timestamp) := by
  intro calls
  induction calls with
  | nil => intro s _; simp [runPlayerUpdates]
  | cons c rest ih =>
    intro s hr
    obtain ⟨p, t⟩ := c
    rcases hpid : s.localPlayerId with _ | pid
    · have : updatePlayerState s p t = (s, none) := by
        simp [updatePlayerState, hpid]
      simp only [runPlayerUpdates, this]
      exact ih s hr
    · by_cases hth : t - s.lastUpdateTime < s.updateRate
      · have : updatePlayerState s p t = (s, none) := by
          simp [updatePlayerState, hpid, hth]
        simp only [runPlayerUpdates, this]
        exact ih s hr
      · have hstep : updatePlayerState s p t =
            ({ s with lastUpdateTime := t
                    , playerStates := assocSet pid
                        (mergePlayerState
                          ((assocGet pid s.playerStates).getD (createEmptyPlayerState pid t)) p t)
                        s.playerStates }
            , some (mergePlayerState
                ((assocGet pid s.playerStates).getD (createEmptyPlayerState pid t)) p t)) := by
          simp [updatePlayerState, hpid, hth]
        have hts : (mergePlayerState
            ((assocGet pid s.playerStates).getD (createEmptyPlayerState pid t)) p t).timestamp
            = t := rfl
        simp only [runPlayerUpdates, hstep, List.map_cons, hts]
        rw [List.chain'_cons]
        refine ⟨by linarith [le_of_not_lt hth], ?_⟩
        exact ih { s with lastUpdateTime := t
                        , playerStates := assocSet pid
                            (mergePlayerState
                              ((assocGet pid s.playerStates).getD (createEmptyPlayerState pid t))
                              p t)
                            s.playerStates } hr

/-- C2 (amended): over every sequence of updatePlayerState calls, consecutive
emitted player_update messages are at least updateRate apart in timestamp
(and the first emission is at least updateRate after the initial throttle
clock), so at most one message is emitted per updateRate interval; and every
emitted message is the full merged player state (the patch merged over the
current or empty state with the timestamp stamped), not a diff restricted to
changed fields. -/
theorem updatePlayerState_throttled_full_state :
    (∀ (s : SyncState) (calls : List (PlayerStatePatch × ℚ)),
      List.Chain' (fun a b => s.updateRate ≤ b - a)
        (s.lastUpdateTime :: (runPlayerUpdates s calls).map PlayerState.timestamp))
    ∧ (∀ (s : SyncState) (patch : PlayerStatePatch) (now : ℚ) (s' : SyncState)
        (m : PlayerState) (pid : String), s.localPlayerId = some pid →
        updatePlayerState s patch now = (s', some m) →
        s.updateRate ≤ now - s.lastUpdateTime
          ∧ m = mergePlayerState
              ((assocGet pid s.playerStates).getD (createEmptyPlayerState pid now)) patch now) := by
  constructor
  · intro s calls
    exact runPlayerUpdates_chain s.updateRate calls s rfl
  · intro s patch now s' m pid hpid h
    by_cases hth : now - s.lastUpdateTime < s.updateRate
    · simp [updatePlayerState, hpid, hth] at h
    · refine ⟨le_of_not_lt (by simpa using hth), ?_⟩
      simp [updatePlayerState, hpid, hth] at h
      exact h.2.symm

/-- C2 witness: the throttle chain at a concrete run, and the full-state
characterization of a concrete emission. -/
theorem updatePlayerState_throttled_full_state_witness :
    List.Chain' (fun a b => cSync0.updateRate ≤ b - a)
      (cSync0.lastUpdateTime ::
        (runPlayerUpdates cSync0 [(cPatch1, 100), (cPatch2, 200)]).map PlayerState.timestamp)
    ∧ (cSync0.updateRate ≤ 100 - cSync0.lastUpdateTime
        ∧ cMsg1 = mergePlayerState
            ((assocGet "me" cSync0.playerStates).getD (createEmptyPlayerState "me" 100))
            cPatch1 100) :=
  ⟨updatePlayerState_throttled_full_state.1 cSync0 [(cPatch1, 100), (cPatch2, 200)],
   updatePlayerState_throttled_full_state.2 cSync0 cPatch1 100
     (updatePlayerState cSync0 cPatch1 100).1 cMsg1 "me" rfl
     (by with_unfolding_all decide)⟩

/-- C2. The claim fails on the code: the second emitted update still contains
the position field with the value unchanged since the first emission, although
the second patch only changed the animation; updatePlayerState always sends
the full merged state and never restricts the payload to changed fields. -/
theorem updatePlayerState_full_payload_counterexample :
    runPlayerUpdates cSync0 [(cPatch1, 100), (cPatch2, 200)] = [cMsg1, cMsg2]
    ∧ cPatch2.position = none
    ∧ cMsg2.position = cMsg1.position := by
  refine ⟨by with_unfolding_all decide, by with_unfolding_all decide, by with_unfolding_all decide⟩

/-- C3: for attempt n with 1 <= n <= maxReconnectAttempts the scheduled backoff
delay is min(reconnectDelay * 1.5 ^ (n - 1), 30000); the delay sequence is
non-decreasing in the attempt number and capped at 30000 ms; and the attempt
after the configured maximum tears down and recreates the socket object
instead of scheduling another wait. -/
theorem attemptReconnect_backoff (s : SignalingRState) (n : ℕ)
    (hguard : s.isReconnecting = false)
    (hatt : s.reconnectAttempts + 1 = n)
    (hnmax : n ≤ s.maxReconnectAttempts)
    (hbase : 0 ≤ s.reconnectDelay) :
    (attemptReconnect s).2
      = ReconnectAction.scheduleTimer (reconnectBackoffDelay s.reconnectDelay n)
    ∧ (∀ m k : ℕ, m ≤ k →
        reconnectBackoffDelay s.reconnectDelay m ≤ reconnectBackoffDelay s.reconnectDelay k)
    ∧ (∀ m : ℕ, reconnectBackoffDelay s.reconnectDelay m ≤ 30000)
    ∧ (∀ s2 : SignalingRState, s2.isReconnecting = false →
        s2.reconnectAttempts = s2.maxReconnectAttempts →
        (attemptReconnect s2).2 = ReconnectAction.recreateSocket) := by
  subst hatt
  refine ⟨?_, ?_, ?_, ?_⟩
  · have hlt : ¬ s.reconnectAttempts + 1 > s.maxReconnectAttempts := by omega
    simp [attemptReconnect, hguard, hlt, reconnectBackoffDelay]
  · intro m k hmk
    unfold reconnectBackoffDelay
    refine min_le_min ?_ le_rfl
    refine mul_le_mul_of_nonneg_left ?_ hbase
    exact pow_le_pow_right₀ (by norm_num) (Nat.sub_le_sub_right hmk 1)
  · intro m
    exact min_le_right _ _
  · intro s2 h1 h2
    have hgt : s2.reconnectAttempts + 1 > s2.maxReconnectAttempts := by omega
    simp [attemptReconnect, h1, hgt]

/-- C3 witness: third attempt from the default configuration schedules the
backoff timer; the sixteenth attempt recreates the socket. -/
theorem attemptReconnect_backoff_witness :
    (attemptReconnect { reconnectAttempts := 2 }).2
      = ReconnectAction.scheduleTimer (reconnectBackoffDelay 1000 3)
    ∧ (attemptReconnect { reconnectAttempts := 15 }).2 = ReconnectAction.recreateSocket := by
  have h := attemptReconnect_backoff { reconnectAttempts := 2 } 3 rfl rfl
    (by norm_num) (by norm_num)
  exact ⟨h.1, h.2.2.2 { reconnectAttempts := 15 } rfl rfl⟩

theorem lerp_between (a b t : ℚ) (h0 : 0 ≤ t) (h1 : t ≤ 1) : between a b (lerp a b t) := by
  unfold between lerp
  rcases le_total a b with hab | hab
  · rw [min_eq_left hab, max_eq_right hab]
    constructor <;> nlinarith
  · rw [min_eq_right hab, max_eq_left hab]
    constructor <;> nlinarith

/-- C4 (amended): one interpolation step of GameNetworkManager.update with
fewer than two buffered samples leaves the entity slot entirely unchanged (it
does not write the latest sample); with a bracketing pair found, the
interpolation factor is clamped to [0, 1] and every position component of the
stored result lies between the corresponding components of the two bracketing
samples (no extrapolation), while rotation is the slerp of the two bracketing
rotations at the same clamped factor. -/
theorem updateEntity_clamped (acosF sinF cosF : ℚ → ℚ) (e : EntitySlot) (t : ℚ) :
    (e.buffer.length < 2 → updateEntity acosF sinF cosF e t = e)
    ∧ (∀ prevS nextS : PlayerState, ¬ e.buffer.length < 2 →
        findBracket none e.buffer t = some (prevS, nextS) →
        ∃ f : ℚ, 0 ≤ f ∧ f ≤ 1 ∧
          ∃ st : PlayerState,
            (updateEntity acosF sinF cosF e t).stored = some st
            ∧ st.position.1 = lerp prevS.position.1 nextS.position.1 f
            ∧ st.position.2.1 = lerp prevS.position.2.1 nextS.position.2.1 f
            ∧ st.position.2.2 = lerp prevS.position.2.2 nextS.position.2.2 f
            ∧ between prevS.position.1 nextS.position.1 st.position.1
            ∧ between prevS.position.2.1 nextS.position.2.1 st.position.2.1
            ∧ between prevS.position.2.2 nextS.position.2.2 st.position.2.2
            ∧ st.rotation = slerpQuaternions acosF sinF cosF prevS.rotation nextS.rotation f) := by
  constructor
  · intro h
    simp [updateEntity, h]
  · intro prevS nextS hlen hfb
    simp only [updateEntity, if_neg hlen, hfb]
    refine ⟨max 0 (min 1 (if 0 < nextS.timestamp - prevS.timestamp
        then (t - prevS.timestamp) / (nextS.timestamp - prevS.timestamp) else 0)),
      le_max_left _ _, max_le (by norm_num) (min_le_left _ _), ?_⟩
    refine ⟨_, rfl, rfl, rfl, rfl, ?_, ?_, ?_, rfl⟩
    all_goals
      exact lerp_between _ _ _ (le_max_left _ _) (max_le (by norm_num) (min_le_left _ _))

/-- C4 witness: the main theorem applied at a concrete one-sample buffer: the
step leaves the slot unchanged. -/
theorem updateEntity_clamped_witness :
    updateEntity zeroFn zeroFn zeroFn cSlot1 5 = cSlot1 :=
  (updateEntity_clamped zeroFn zeroFn zeroFn cSlot1 5).1 (by norm_num [cSlot1])

/-- C4. The claim fails on the code: after receiving cOld at time 0 and cNew at
time 26000 the 10 s trim leaves a single-sample buffer [cNew], yet the stored
entity state is still cOld; the interpolation step skips entities with fewer
than two samples instead of returning the latest known sample, so the value
produced is cOld, not the latest sample cNew. -/
theorem updateEntity_skip_counterexample :
    (handlePlayerUpdate (handlePlayerUpdate emptySlot cOld 0) cNew 26000).buffer = [cNew]
    ∧ (updateEntity zeroFn zeroFn zeroFn
        (handlePlayerUpdate (handlePlayerUpdate emptySlot cOld 0) cNew 26000) 26000).stored
        = some cOld
    ∧ cOld ≠ cNew := by
  have hE : handlePlayerUpdate (handlePlayerUpdate emptySlot cOld 0) cNew 26000
      = { buffer := [cNew], stored := some cOld } := by
    norm_num [handlePlayerUpdate, emptySlot, cOld, cNew, List.insertionSort, List.orderedInsert,
      tsLe, List.filter]
  refine ⟨by rw [hE], ?_, by simp [cOld, cNew]⟩
  rw [hE]
  norm_num [updateEntity]

/-- C5: for a unit quaternion q and interpolation factor t in [0, 1],
slerpQuaternions on (q, -q) gives exactly the same result as on (q, q): the
negative dot product makes the source negate the second input (shortest path)
and the near-identical fallback (dot magnitude above 0.9995) reduces to
componentwise linear interpolation, which returns q in both cases, for every
choice of the external trigonometric functions. -/
theorem slerpQuaternions_shortest_path (acosF sinF cosF : ℚ → ℚ) (q : Quat) (t : ℚ)
    (hunit : q.1 ^ 2 + q.2.1 ^ 2 + q.2.2.1 ^ 2 + q.2.2.2 ^ 2 = 1)
    (ht0 : 0 ≤ t) (ht1 : t ≤ 1) :
    slerpQuaternions acosF sinF cosF q (negQuat q) t
      = slerpQuaternions acosF sinF cosF q q t
    ∧ slerpQuaternions acosF sinF cosF q q t = q := by
  obtain ⟨x, y, z, w⟩ := q
  simp only at hunit
  have hd1 : x * x + y * y + z * z + w * w = 1 := by linear_combination hunit
  have hdneg : x * -x + y * -y + z * -z + w * -w = -1 := by linear_combination -hunit
  have h2 : slerpQuaternions acosF sinF cosF (x, y, z, w) (x, y, z, w) t = (x, y, z, w) := by
    simp only [slerpQuaternions]
    rw [hd1]
    norm_num [lerp]
  have h1 : slerpQuaternions acosF sinF cosF (x, y, z, w) (negQuat (x, y, z, w)) t
      = (x, y, z, w) := by
    simp only [slerpQuaternions, negQuat]
    rw [hdneg]
    norm_num [lerp]
  exact ⟨h1.trans h2.symm, h2⟩

/-- C5 witness: the identity quaternion against its negation at factor 1/2. -/
theorem slerpQuaternions_shortest_path_witness :
    slerpQuaternions zeroFn zeroFn zeroFn (0, 0, 0, 1) (negQuat (0, 0, 0, 1)) (1 / 2)
      = slerpQuaternions zeroFn zeroFn zeroFn (0, 0, 0, 1) (0, 0, 0, 1) (1 / 2) :=
  (slerpQuaternions_shortest_path zeroFn zeroFn zeroFn (0, 0, 0, 1) (1 / 2)
    (by norm_num) (by norm_num) (by norm_num)).1

theorem assocGet_assocSet {α β : Type} [DecidableEq α] (k k' : α) (v : β)
    (l : List (α × β)) :
    assocGet k' (assocSet k v l) = if k = k' then some v else assocGet k' l := by
  induction l with
  | nil => simp [assocSet, assocGet]
  | cons hd tl ih =>
    obtain ⟨a, b⟩ := hd
    by_cases hak : a = k
    · subst hak
      simp only [assocSet, if_pos rfl, assocGet]
      split_ifs <;> rfl
    · simp only [assocSet, if_neg hak, assocGet]
      by_cases hak' : a = k'
      · subst hak'
        have hka : ¬ k = a := fun h => hak h.symm
        simp [hka]
      · simp [hak', ih]

theorem assocGet_some_mem_keys {α β : Type} [DecidableEq α] {k : α} {v : β}
    {l : List (α × β)} (h : assocGet k l = some v) : k ∈ l.map Prod.fst := by
  induction l with
  | nil => simp [assocGet] at h
  | cons hd tl ih =>
    obtain ⟨a, b⟩ := hd
    by_cases hak : a = k
    · subst hak
      simp
    · simp only [assocGet, if_neg hak] at h
      simpa using Or.inr (ih h)

theorem assocGet_none_not_mem {α β : Type} [DecidableEq α] {k : α}
    {l : List (α × β)} (h : assocGet k l = none) : ∀ p ∈ l, p.1 ≠ k := by
  induction l with
  | nil => simp
  | cons hd tl ih =>
    obtain ⟨a, b⟩ := hd
    intro p hp
    by_cases hak : a = k
    · subst hak
      simp [assocGet] at h
    · simp only [assocGet, if_neg hak] at h
      rcases List.mem_cons.mp hp with hp1 | hp1
      · simp [hp1, hak]
      · exact ih h p hp1

theorem mem_assocSet_weak {α β : Type} [DecidableEq α] {p : α × β} {k : α} {v : β}
    {l : List (α × β)} (h : p ∈ assocSet k v l) : p = (k, v) ∨ p ∈ l := by
  induction l with
  | nil => simpa [assocSet] using h
  | cons hd tl ih =>
    obtain ⟨a, b⟩ := hd
    by_cases hak : a = k
    · subst hak
      simp only [assocSet, if_pos rfl] at h
      rcases List.mem_cons.mp h with h1 | h1
      · exact Or.inl h1
      · exact Or.inr (List.mem_cons_of_mem _ h1)
    · simp only [assocSet, if_neg hak] at h
      rcases List.mem_cons.mp h with h1 | h1
      · exact Or.inr (by simp [h1])
      · rcases ih h1 with h2 | h2
        · exact Or.inl h2
        · exact Or.inr (List.mem_cons_of_mem _ h2)

theorem mem_keys_assocSet {α β : Type} [DecidableEq α] {a k : α} {v : β}
    {l : List (α × β)} (h : a ∈ (assocSet k v l).map Prod.fst) :
    a ∈ l.map Prod.fst ∨ a = k := by
  rcases List.mem_map.mp h with ⟨p, hp, hpa⟩
  rcases mem_assocSet_weak hp with h2 | h2
  · refine Or.inr ?_
    rw [← hpa, h2]
  · exact Or.inl (List.mem_map.mpr ⟨p, h2, hpa⟩)

theorem nodup_keys_assocSet {α β : Type} [DecidableEq α] (k : α) (v : β)
    {l : List (α × β)} (h : (l.map Prod.fst).Nodup) :
    ((assocSet k v l).map Prod.fst).Nodup := by
  induction l with
  | nil => simp [assocSet]
  | cons hd tl ih =>
    obtain ⟨a, b⟩ := hd
    simp only [List.map_cons, List.nodup_cons] at h
    by_cases hak : a = k
    · subst hak
      simpa [assocSet, List.nodup_cons] using h
    · have htl := ih h.2
      simp only [assocSet, if_neg hak, List.map_cons, List.nodup_cons]
      refine ⟨fun hmem => ?_, htl⟩
      rcases mem_keys_assocSet hmem with h2 | h2
      · exact h.1 h2
      · exact hak h2

theorem assocDelete_sublist {α β : Type} [DecidableEq α] (k : α) (l : List (α × β)) :
    (assocDelete k l).Sublist l := by
  induction l with
  | nil => simp [assocDelete]
  | cons hd tl ih =>
    obtain ⟨a, b⟩ := hd
    by_cases hak : a = k
    · subst hak
      simpa [assocDelete] using List.Sublist.cons (a, b) ih
    · simpa [assocDelete, hak] using List.Sublist.cons₂ (a, b) ih

theorem mem_assocDelete {α β : Type} [DecidableEq α] {p : α × β} {k : α}
    {l : List (α × β)} (h : p ∈ assocDelete k l) : p ∈ l ∧ p.1 ≠ k := by
  induction l with
  | nil => simp [assocDelete] at h
  | cons hd tl ih =>
    obtain ⟨a, b⟩ := hd
    by_cases hak : a = k
    · subst hak
      simp only [assocDelete, if_pos rfl] at h
      exact ⟨List.mem_cons_of_mem _ (ih h).1, (ih h).2⟩
    · simp only [assocDelete, if_neg hak] at h
      rcases List.mem_cons.mp h with h1 | h1
      · exact ⟨by simp [h1], by simp [h1, hak]⟩
      · exact ⟨List.mem_cons_of_mem _ (ih h1).1, (ih h1).2⟩

theorem nodup_keys_createPeer {s : PMState} (h : (s.peers.map Prod.fst).Nodup)
    (u : String) (i : Bool) : (((createPeer s u i).peers).map Prod.fst).Nodup :=
  nodup_keys_assocSet u _ h

theorem nodup_keys_closePeer {s : PMState} (h : (s.peers.map Prod.fst).Nodup)
    (u : String) : (((closePeer s u).peers).map Prod.fst).Nodup := by
  unfold closePeer
  rcases hget : assocGet u s.peers with _ | link
  · exact h
  · by_cases hd : link.destroyed
    · simp [hd, h]
    · simp only [hd]
      simpa using nodup_keys_assocSet u _ h

theorem nodup_keys_closeAllPeers {s : PMState} (h : (s.peers.map Prod.fst).Nodup) :
    (((closeAllPeers s).peers).map Prod.fst).Nodup := by
  unfold closeAllPeers
  generalize s.peers.map Prod.fst = keys
  induction keys generalizing s with
  | nil => exact h
  | cons k rest ih => exact ih (nodup_keys_closePeer h k)

theorem nodup_keys_roomUsers {s : PMState} (h : (s.peers.map Prod.fst).Nodup)
    (users : List String) : (((handleRoomUsers s users).peers).map Prod.fst).Nodup := by
  unfold handleRoomUsers
  induction users generalizing s with
  | nil => exact h
  | cons u rest ih =>
    simp only [List.foldl_cons]
    by_cases hcond : s.selfId ≠ some u ∧ assocGet u s.peers = none
    · simp only [if_pos hcond]
      exact ih (nodup_keys_createPeer h u false)
    · simp only [if_neg hcond]
      exact ih h

theorem nodup_keys_leaveRoom {s : PMState} (h : (s.peers.map Prod.fst).Nodup) :
    (((leaveRoomPM s).peers).map Prod.fst).Nodup := by
  unfold leaveRoomPM
  rcases s.roomId with _ | r
  · exact h
  · exact nodup_keys_closeAllPeers h

/-- Every PeerManager transition preserves uniqueness of the peer-map keys. -/
theorem pmstep_nodup {s s' : PMState} (hstep : PMStep s s')
    (h : (s.peers.map Prod.fst).Nodup) : (s'.peers.map Prod.fst).Nodup := by
  cases hstep with
  | roomUsers users => exact nodup_keys_roomUsers h users
  | userJoined u =>
    unfold handleUserJoined
    split
    · exact nodup_keys_createPeer h u true
    · exact h
  | signalEvt u =>
    unfold handleSignalEvent
    split
    · exact nodup_keys_createPeer h u false
    · exact h
  | userLeft u => exact nodup_keys_closePeer h u
  | closeEvt u =>
    exact List.Nodup.sublist (List.Sublist.map Prod.fst (assocDelete_sublist u s.peers)) h
  | setSelf i => exact h
  | joinRoomCall r =>
    unfold joinRoomPM
    split
    · exact nodup_keys_leaveRoom h
    · exact h
  | leaveRoomCall => exact nodup_keys_leaveRoom h
  | disconnectCall =>
    unfold disconnectPM
    split
    · exact nodup_keys_leaveRoom h
    · exact nodup_keys_closeAllPeers h

theorem roomUsers_preserves_entry {u : String} {link : Link} (users : List String) :
    ∀ s : PMState, assocGet u s.peers = some link →
      assocGet u (handleRoomUsers s users).peers = some link := by
  unfold handleRoomUsers
  induction users with
  | nil => intro s h; exact h
  | cons w rest ih =>
    intro s h
    simp only [List.foldl_cons]
    by_cases hcond : s.selfId ≠ some w ∧ assocGet w s.peers = none
    · simp only [if_pos hcond]
      refine ih _ ?_
      have hwu : w ≠ u := by
        intro he
        rw [he, h] at hcond
        exact Option.noConfusion hcond.2
      unfold createPeer
      simpa [assocGet_assocSet, hwu] using h
    · simp only [if_neg hcond]
      exact ih s h

/-- C6: the peers map of PeerManager holds at most one PeerConnection per
remote id in every reachable state (its key list has no duplicates), and each
event-handler path that can create a peer checks the map first: when a link
for the id is already live, user_joined and the inbound signal handler leave
the map untouched, and room_users never replaces the existing entry. -/
theorem peerManager_unique_link :
    (∀ s : PMState, PMReachable s → (s.peers.map Prod.fst).Nodup)
    ∧ (∀ (s : PMState) (u : String) (link : Link), assocGet u s.peers = some link →
        (handleUserJoined s u).peers = s.peers
        ∧ (handleSignalEvent s u).peers = s.peers
        ∧ ∀ users : List String, assocGet u (handleRoomUsers s users).peers = some link) := by
  constructor
  · intro s hreach
    induction hreach with
    | refl => simp [PMInit]
    | tail _ hstep ih => exact pmstep_nodup hstep ih
  · intro s u link hget
    refine ⟨?_, ?_, fun users => roomUsers_preserves_entry users s hget⟩
    · unfold handleUserJoined
      have : ¬ (s.selfId ≠ some u ∧ assocGet u s.peers = none) := by
        rintro ⟨_, h2⟩
        rw [hget] at h2
        exact Option.noConfusion h2
      simp [this]
    · unfold handleSignalEvent
      have : ¬ assocGet u s.peers = none := by
        rw [hget]
        exact fun h => Option.noConfusion h
      simp [this]

/-- C6 witness: the fresh manager has unique keys, and a user_joined event for
an id that already has a live link leaves the peers map unchanged. -/
theorem peerManager_unique_link_witness :
    (PMInit.peers.map Prod.fst).Nodup
    ∧ (handleUserJoined cPM "p").peers = cPM.peers :=
  ⟨peerManager_unique_link.1 PMInit Relation.ReflTransGen.refl,
   (peerManager_unique_link.2 cPM "p" { token := 0, destroyed := false } (by decide)).1⟩

theorem mem_of_assocGet {α β : Type} [DecidableEq α] {k : α} {v : β}
    {l : List (α × β)} (h : assocGet k l = some v) : (k, v) ∈ l := by
  induction l with
  | nil => simp [assocGet] at h
  | cons hd tl ih =>
    obtain ⟨a, b⟩ := hd
    by_cases hak : a = k
    · subst hak
      have hb : b = v := by simpa [assocGet] using h
      subst hb
      exact List.mem_cons_self _ _
    · simp only [assocGet, if_neg hak] at h
      exact List.mem_cons_of_mem _ (ih h)

theorem assocGet_isSome_of_mem_keys {α β : Type} [DecidableEq α] {k : α}
    {l : List (α × β)} (h : k ∈ l.map Prod.fst) : ∃ v, assocGet k l = some v := by
  induction l with
  | nil => simp at h
  | cons hd tl ih =>
    obtain ⟨a, b⟩ := hd
    by_cases hak : a = k
    · subst hak
      exact ⟨b, by simp [assocGet]⟩
    · simp only [List.map_cons, List.mem_cons] at h
      rcases h with h | h
      · exact absurd h.symm hak
      · simpa [assocGet, hak] using ih h

theorem keys_assocSet_of_get_some {α β : Type} [DecidableEq α] {k : α} {w : β}
    (v : β) {l : List (α × β)} (h : assocGet k l = some w) :
    (assocSet k v l).map Prod.fst = l.map Prod.fst := by
  induction l with
  | nil => simp [assocGet] at h
  | cons hd tl ih =>
    obtain ⟨a, b⟩ := hd
    by_cases hak : a = k
    · subst hak
      simp [assocSet]
    · simp only [assocGet, if_neg hak] at h
      simp [assocSet, hak, ih h]

theorem closePeer_none {s : PMState} {k : String} (h : assocGet k s.peers = none) :
    closePeer s k = s := by
  unfold closePeer
  rw [h]

theorem closePeer_already {s : PMState} {k : String} {link : Link}
    (h : assocGet k s.peers = some link) (hd : link.destroyed = true) :
    closePeer s k = s := by
  unfold closePeer
  rw [h]
  dsimp only
  rw [if_pos hd]

theorem closePeer_active {s : PMState} {k : String} {link : Link}
    (h : assocGet k s.peers = some link) (hd : link.destroyed = false) :
    closePeer s k =
      { s with peers := assocSet k { link with destroyed := true } s.peers
             , pendingClose := s.pendingClose ++ [k] } := by
  unfold closePeer
  rw [h]
  dsimp only
  rw [if_neg (by rw [hd]; exact Bool.false_ne_true)]

theorem keys_closePeer (s : PMState) (k : String) :
    ((closePeer s k).peers).map Prod.fst = s.peers.map Prod.fst := by
  rcases hget : assocGet k s.peers with _ | link
  · rw [closePeer_none hget]
  · rcases hd : link.destroyed with _ | _
    · rw [closePeer_active hget hd]
      exact keys_assocSet_of_get_some _ hget
    · rw [closePeer_already hget hd]

theorem foldl_closePeer_keys (K : List String) :
    ∀ s : PMState, (((K.foldl closePeer s).peers).map Prod.fst) = s.peers.map Prod.fst := by
  induction K with
  | nil => intro s; rfl
  | cons k rest ih =>
    intro s
    simpa [List.foldl_cons] using (ih (closePeer s k)).trans (keys_closePeer s k)

theorem closePeer_pendingClose_mono {x : String} (s : PMState) (k : String)
    (h : x ∈ s.pendingClose) : x ∈ (closePeer s k).pendingClose := by
  rcases hget : assocGet k s.peers with _ | link
  · rw [closePeer_none hget]
    exact h
  · rcases hd : link.destroyed with _ | _
    · rw [closePeer_active hget hd]
      exact List.mem_append_left _ h
    · rw [closePeer_already hget hd]
      exact h

theorem foldl_closePeer_pendingClose_mono {x : String} (K : List String) :
    ∀ s : PMState, x ∈ s.pendingClose → x ∈ (K.foldl closePeer s).pendingClose := by
  induction K with
  | nil => intro s h; exact h
  | cons k rest ih =>
    intro s h
    exact ih (closePeer s k) (closePeer_pendingClose_mono s k h)

theorem closeAll_destroys (K : List String) :
    ∀ s : PMState,
      (∀ u link, assocGet u s.peers = some link → u ∈ K ∨ link.destroyed = true) →
      ∀ u link, assocGet u ((K.foldl closePeer s).peers) = some link →
        link.destroyed = true := by
  induction K with
  | nil =>
    intro s hinit u link hget
    rcases hinit u link hget with h | h
    · simp at h
    · exact h
  | cons k rest ih =>
    intro s hinit
    simp only [List.foldl_cons]
    refine ih (closePeer s k) ?_
    intro u link hget
    rcases hg0 : assocGet k s.peers with _ | link0
    · rw [closePeer_none hg0] at hget
      rcases hinit u link hget with hm | hd
      · rcases List.mem_cons.mp hm with he | he
        · subst he
          rw [hget] at hg0
          exact Option.noConfusion hg0
        · exact Or.inl he
      · exact Or.inr hd
    · rcases hd0 : link0.destroyed with _ | _
      · rw [closePeer_active hg0 hd0] at hget
        have hget2 : assocGet u (assocSet k { link0 with destroyed := true } s.peers)
            = some link := hget
        rw [assocGet_assocSet] at hget2
        by_cases hku : k = u
        · rw [if_pos hku] at hget2
          refine Or.inr ?_
          rw [← Option.some.inj hget2]
        · rw [if_neg hku] at hget2
          rcases hinit u link hget2 with hm | hd
          · rcases List.mem_cons.mp hm with he | he
            · exact absurd he.symm hku
            · exact Or.inl he
          · exact Or.inr hd
      · rw [closePeer_already hg0 hd0] at hget
        by_cases huk : u = k
        · subst huk
          rw [hget] at hg0
          refine Or.inr ?_
          rw [Option.some.inj hg0]
          exact hd0
        · rcases hinit u link hget with hm | hd
          · rcases List.mem_cons.mp hm with he | he
            · exact absurd he huk
            · exact Or.inl he
          · exact Or.inr hd

theorem closeAll_covers_keys (K : List String) :
    ∀ s : PMState,
      (∀ k ∈ K, ∃ link, assocGet k s.peers = some link) →
      (∀ k ∈ K, ∀ link, assocGet k s.peers = some link → link.destroyed = true →
        k ∈ s.pendingClose) →
      ∀ k ∈ K, k ∈ ((K.foldl closePeer s).pendingClose) := by
  induction K with
  | nil => intro s _ _ k hk; simp at hk
  | cons k0 rest ih =>
    intro s hex hdes k hk
    simp only [List.foldl_cons]
    have hex' : ∀ x ∈ rest, ∃ link, assocGet x (closePeer s k0).peers = some link := by
      intro x hx
      rcases hex x (List.mem_cons_of_mem _ hx) with ⟨link0, hg0⟩
      rcases hgk : assocGet k0 s.peers with _ | linkk
      · rw [closePeer_none hgk]
        exact ⟨link0, hg0⟩
      · rcases hdk : linkk.destroyed with _ | _
        · rw [closePeer_active hgk hdk]
          have : assocGet x (assocSet k0 { linkk with destroyed := true } s.peers)
              = if k0 = x then some { linkk with destroyed := true }
                else assocGet x s.peers := assocGet_assocSet _ _ _ _
          by_cases hkx : k0 = x
          · exact ⟨_, by rw [this, if_pos hkx]⟩
          · exact ⟨link0, by rw [this, if_neg hkx]; exact hg0⟩
        · rw [closePeer_already hgk hdk]
          exact ⟨link0, hg0⟩
    have hdes' : ∀ x ∈ rest, ∀ link, assocGet x (closePeer s k0).peers = some link →
        link.destroyed = true → x ∈ (closePeer s k0).pendingClose := by
      intro x hx link hg hd
      rcases hgk : assocGet k0 s.peers with _ | linkk
      · rw [closePeer_none hgk] at hg ⊢
        exact hdes x (List.mem_cons_of_mem _ hx) link hg hd
      · rcases hdk : linkk.destroyed with _ | _
        · rw [closePeer_active hgk hdk] at hg ⊢
          have hg2 : assocGet x (assocSet k0 { linkk with destroyed := true } s.peers)
              = some link := hg
          rw [assocGet_assocSet] at hg2
          by_cases hkx : k0 = x
          · exact List.mem_append_right _ (by simp [hkx])
          · rw [if_neg hkx] at hg2
            exact List.mem_append_left _ (hdes x (List.mem_cons_of_mem _ hx) link hg2 hd)
        · rw [closePeer_already hgk hdk] at hg ⊢
          exact hdes x (List.mem_cons_of_mem _ hx) link hg hd
    rcases List.mem_cons.mp hk with hk1 | hk1
    · subst hk1
      rcases hex k (List.mem_cons_self _ _) with ⟨link0, hg0⟩
      rcases hd0 : link0.destroyed with _ | _
      · refine foldl_closePeer_pendingClose_mono rest _ ?_
        rw [closePeer_active hg0 hd0]
        exact List.mem_append_right _ (by simp)
      · refine foldl_closePeer_pendingClose_mono rest _ ?_
        rw [closePeer_already hg0 hd0]
        exact hdes k (List.mem_cons_self _ _) link0 hg0 hd0
    · exact ih (closePeer s k0) hex' hdes' k hk1

theorem mem_foldl_closeEvent (K : List String) :
    ∀ (s : PMState) (p : String × Link),
      p ∈ ((K.foldl handleCloseEvent s).peers) → p ∈ s.peers ∧ p.1 ∉ K := by
  induction K with
  | nil => intro s p h; exact ⟨h, by simp⟩
  | cons k rest ih =>
    intro s p h
    simp only [List.foldl_cons] at h
    rcases ih (handleCloseEvent s k) p h with ⟨h1, h2⟩
    have h3 := mem_assocDelete (p := p) (k := k) (l := s.peers) h1
    refine ⟨h3.1, ?_⟩
    simp only [List.mem_cons, not_or]
    exact ⟨h3.2, h2⟩

/-- C7 (amended): leaveRoom (and disconnect) synchronously invoke close on
every outstanding PeerConnection, so when the call returns every link in the
map is destroyed; but the map entries themselves are NOT removed before the
call returns (the key set is unchanged) because removal lives in each link's
close handler, which simple-peer 9.11.1 defers to a microtask; once all queued
close events are delivered the peer map is empty, so no link outlives its room
membership beyond the already-queued close deliveries. The coverage hypothesis
states the standing invariant that a previously destroyed link already has its
close event queued. -/
theorem leaveRoom_closes_and_clears (s : PMState) (r : String)
    (hroom : s.roomId = some r)
    (hcov : ∀ p ∈ s.peers, p.2.destroyed = true → p.1 ∈ s.pendingClose) :
    (∀ u link, assocGet u (leaveRoomPM s).peers = some link → link.destroyed = true)
    ∧ (leaveRoomPM s).peers.map Prod.fst = s.peers.map Prod.fst
    ∧ (processPendingClose (leaveRoomPM s)).peers = []
    ∧ (∀ u link, assocGet u (disconnectPM s).peers = some link → link.destroyed = true) := by
  have hlr : leaveRoomPM s = closeAllPeers { s with roomId := none } := by
    unfold leaveRoomPM
    rw [hroom]
  have hpeers0 : ({ s with roomId := none } : PMState).peers = s.peers := rfl
  have hdestroy : ∀ u link, assocGet u (leaveRoomPM s).peers = some link →
      link.destroyed = true := by
    rw [hlr]
    unfold closeAllPeers
    refine closeAll_destroys _ _ ?_
    intro u link hget
    exact Or.inl (assocGet_some_mem_keys hget)
  refine ⟨hdestroy, ?_, ?_, ?_⟩
  · rw [hlr]
    unfold closeAllPeers
    exact foldl_closePeer_keys _ _
  · have hkeys : (leaveRoomPM s).peers.map Prod.fst = s.peers.map Prod.fst := by
      rw [hlr]
      unfold closeAllPeers
      exact foldl_closePeer_keys _ _
    have hcover : ∀ k ∈ s.peers.map Prod.fst, k ∈ (leaveRoomPM s).pendingClose := by
      rw [hlr]
      unfold closeAllPeers
      refine closeAll_covers_keys _ _ ?_ ?_
      · intro k hk
        exact assocGet_isSome_of_mem_keys hk
      · intro k _ link hget hd
        exact hcov (k, link) (mem_of_assocGet hget) hd
    refine List.eq_nil_iff_forall_not_mem.mpr ?_
    intro p hp
    unfold processPendingClose at hp
    rcases mem_foldl_closeEvent (leaveRoomPM s).pendingClose _ p hp with ⟨h1, h2⟩
    have hpk : p.1 ∈ s.peers.map Prod.fst := by
      rw [← hkeys]
      exact List.mem_map.mpr ⟨p, h1, rfl⟩
    exact h2 (hcover p.1 hpk)
  · intro u link hget
    refine hdestroy u link ?_
    unfold disconnectPM at hget
    rw [if_pos (by rw [hroom]; rfl)] at hget
    exact hget

/-- C7. The claim fails on the code: immediately after leaveRoom returns, the
peer map still contains the entry for peer p (with its link destroyed and its
close event queued), so the map is not cleared synchronously before the call
returns; it becomes empty only once the queued close event is delivered. -/
theorem leaveRoom_async_clear_counterexample :
    (leaveRoomPM cPM).peers = [("p", { token := 0, destroyed := true })]
    ∧ (leaveRoomPM cPM).peers ≠ []
    ∧ (leaveRoomPM cPM).pendingClose = ["p"]
    ∧ (processPendingClose (leaveRoomPM cPM)).peers = [] := by
  refine ⟨by decide, by decide, by decide, by decide⟩

/-- C7 witness: the amended theorem at the concrete one-peer state. -/
theorem leaveRoom_closes_and_clears_witness :
    Link.destroyed { token := 0, destroyed := true } = true
    ∧ (processPendingClose (leaveRoomPM cPM)).peers = [] := by
  have h := leaveRoom_closes_and_clears cPM "r" rfl (by decide)
  exact ⟨h.1 "p" { token := 0, destroyed := true } (by decide), h.2.2.1⟩

/-- C8: the game store bounds every room-join attempt with the 15 s connection
timeout: connect from an idle store schedules the CONNECTION_TIMEOUT (15000
ms) timer and enters the connecting state; if the timeout fires while the
store is still connecting, the attempt is abandoned (no longer connecting),
the session is torn down (the PeerManager is disconnected and dropped, the
room id cleared) and the terminal user-visible error is surfaced, requiring an
explicit retry; if clientConnected arrives first, the pending timeout is
cancelled and the attempt completes. -/
theorem gameStore_join_timeout (s : StoreState) (r : String)
    (hc1 : s.isConnected = false) (hc2 : s.isConnecting = false) :
    (storeConnect s r).2 = [StoreAction.scheduleTimeout connectionTimeoutMs]
    ∧ connectionTimeoutMs = 15000
    ∧ (storeConnect s r).1.isConnecting = true
    ∧ (storeConnect s r).1.timeoutPending = true
    ∧ (∀ s2 : StoreState, s2.isConnecting = true →
        (storeTimeoutFire s2).1.isConnecting = false
        ∧ (storeTimeoutFire s2).1.connectionError
            = some "Connection timed out. Please try again."
        ∧ (storeTimeoutFire s2).1.roomId = none
        ∧ (storeTimeoutFire s2).1.hasPeerManager = false
        ∧ (storeTimeoutFire s2).2 = [StoreAction.teardownPeerManager])
    ∧ (∀ s3 : StoreState, (storeClientConnected s3).1.timeoutPending = false
        ∧ (storeClientConnected s3).1.isConnected = true) := by
  refine ⟨?_, rfl, ?_, ?_, ?_, ?_⟩
  · simp [storeConnect, hc1, hc2]
  · simp [storeConnect, hc1, hc2]
  · simp [storeConnect, hc1, hc2]
  · intro s2 h2
    simp [storeTimeoutFire, h2]
  · intro s3
    exact ⟨rfl, rfl⟩

/-- C8 witness: a fresh store joining room R schedules the 15 s timeout, and
firing it afterwards surfaces the terminal error. -/
theorem gameStore_join_timeout_witness :
    (storeConnect cStore0 "R").2 = [StoreAction.scheduleTimeout connectionTimeoutMs]
    ∧ (storeTimeoutFire (storeConnect cStore0 "R").1).1.connectionError
        = some "Connection timed out. Please try again." := by
  have h := gameStore_join_timeout cStore0 "R" rfl rfl
  exact ⟨h.1, (h.2.2.2.2.1 (storeConnect cStore0 "R").1 h.2.2.1).2.1⟩

/-- C9: an inbound peer data buffer whose JSON parse throws is dropped by the
data handler of PeerConnection: no data event is emitted, exactly one console
error is logged, the handler returns normally (it is a total function, so the
exception cannot escape into the event loop) and the connection state is
untouched, so the failure is non-fatal to the link and to other links. -/
theorem peerConnection_drops_malformed (st : PeerConnState)
    (parsed : Except String PeerData) (e : String)
    (hbad : parsed = Except.error e) :
    (handleDataEvent st parsed).2.1 = []
    ∧ (handleDataEvent st parsed).2.2
        = ["[PeerConnection] Failed to parse peer data: " ++ e]
    ∧ (handleDataEvent st parsed).1 = st := by
  subst hbad
  exact ⟨rfl, rfl, rfl⟩

/-- C9 witness: a concrete malformed buffer is dropped with one logged error. -/
theorem peerConnection_drops_malformed_witness :
    (handleDataEvent cConn0 (Except.error "Unexpected token")).2.1 = []
    ∧ (handleDataEvent cConn0 (Except.error "Unexpected token")).1 = cConn0 := by
  have h := peerConnection_drops_malformed cConn0 (Except.error "Unexpected token")
    "Unexpected token" rfl
  exact ⟨h.1, h.2.2⟩

theorem emitCallbacks_cons_ok {σ : Type} {cb : σ → Except String σ} {s s2 : σ}
    (h : cb s = Except.ok s2) (rest : List (σ → Except String σ)) :
    emitCallbacks (cb :: rest) s = emitCallbacks rest s2 := by
  conv_lhs => rw [emitCallbacks]
  rw [h]

theorem emitCallbacks_cons_error {σ : Type} {cb : σ → Except String σ} {s : σ} {e : String}
    (h : cb s = Except.error e) (rest : List (σ → Except String σ)) :
    emitCallbacks (cb :: rest) s
      = ((emitCallbacks rest s).1, e :: (emitCallbacks rest s).2) := by
  conv_lhs => rw [emitCallbacks]
  rw [h]

theorem emitCallbacks_append {σ : Type} (l1 l2 : List (σ → Except String σ)) (s : σ) :
    emitCallbacks (l1 ++ l2) s
      = ((emitCallbacks l2 (emitCallbacks l1 s).1).1,
         (emitCallbacks l1 s).2 ++ (emitCallbacks l2 (emitCallbacks l1 s).1).2) := by
  induction l1 generalizing s with
  | nil => simp [emitCallbacks]
  | cons cb rest ih =>
    rcases hcb : cb s with e2 | s2
    · rw [List.cons_append, emitCallbacks_cons_error hcb (rest ++ l2),
        emitCallbacks_cons_error hcb rest, ih s]
      simp
    · rw [List.cons_append, emitCallbacks_cons_ok hcb (rest ++ l2),
        emitCallbacks_cons_ok hcb rest, ih s2]

/-- C10: PeerManager.emit isolates listener failures: with the registered
callbacks split as a prefix, one throwing callback and a suffix, the throwing
callback's error is caught and logged (it appears in the log, and the result
type carries no exception, so nothing propagates to the emitting code) and the
suffix callbacks are still run, from the state the prefix produced. -/
theorem emit_listener_isolation {σ : Type} (cbs1 cbs2 : List (σ → Except String σ))
    (bad : σ → Except String σ) (s : σ) (e : String)
    (hbad : bad (emitCallbacks cbs1 s).1 = Except.error e) :
    emitCallbacks (cbs1 ++ bad :: cbs2) s
      = ((emitCallbacks cbs2 (emitCallbacks cbs1 s).1).1,
         (emitCallbacks cbs1 s).2
           ++ e :: (emitCallbacks cbs2 (emitCallbacks cbs1 s).1).2) := by
  rw [emitCallbacks_append]
  simp [emitCallbacks, hbad]

/-- C10 witness: a throwing middle listener is logged and the last listener
still runs (1 is incremented to 2 and then doubled to 4). -/
theorem emit_listener_isolation_witness :
    emitCallbacks [cCbInc, cCbBoom, cCbDouble] 1 = (4, ["boom"]) := by
  have h := emit_listener_isolation [cCbInc] [cCbDouble] cCbBoom 1 "boom" rfl
  exact h.trans (by decide)
